import Mathlib

/-!
Verification of the plugin utility layer in `plugins/mumble_plugin_utils.h`.

The header contains five independent components: a text-encoding converter
built on `std::wstring_convert< std::codecvt_utf8_utf16< Elem > >`, an
in-place ASCII sanitizer (`escape`), a whole-file reader (`readFile`), an
endianness probe (`isBigEndian` via the `SingleSplit4Bytes` union) with a
16-bit byte-order converter (`networkToHost`), and trigonometric helpers.

The encoding functions delegate to the C++ standard library facet
`codecvt_utf8_utf16`, whose conversion routine (GNU libstdc++,
`src/c++11/codecvt.cc`) is modelled here byte for byte:
`read_utf8_code_point` / `write_utf8_code_point` /
`write_utf16_code_point` and the driver loops `utf16_in` / `utf16_out`.
The facet always converts between UTF-8 and UTF-16 code units regardless
of the element width; with 32-bit elements a single non-surrogate unit up
to 0x10FFFF is encoded directly, and the decoder accepts minimal-length
three-byte encodings of surrogate code points (it checks overlong forms
and the 0x10FFFF ceiling, but not the surrogate range).

A conversion can end three ways, and the distinction is observable through
`wstring_convert`: `ok` converts the whole input; `partial` (here the
constructor `part`) arises when the input ends in an incomplete sequence -
a multi-byte lead byte announcing more bytes than remain - in which case
`from_bytes`/`to_bytes` return the output produced for the preceding
complete sequences without throwing; `error` arises on an invalid sequence,
makes `from_bytes`/`to_bytes` throw `range_error`, and the handlers in the
header turn that into the empty string. Each behavior was validated against
libstdc++ (for example, from_bytes on 41 C2 returns the one-unit prefix,
while 41 80 throws and yields empty).

Strings are modelled as lists of natural numbers: byte values for narrow
strings, code-unit values for wide strings.
-/

/-- Continuation-byte test used by the UTF-8 decoder: the C++ source checks
`(c & 0xC0) == 0x80`. -/
def is_cont (b : Nat) : Bool := b &&& 0xC0 == 0x80

/-- Result of decoding one UTF-8 character, mirroring the three possible
returns of libstdc++ `read_utf8_code_point`: a code point (with the bytes
remaining after it), the `invalid_mb_sequence` sentinel, or the
`incomplete_mb_character` sentinel. -/
inductive ReadResult where
  | ok (cp : Nat) (rest : List Nat)
  | invalid
  | incomplete
deriving DecidableEq

/-- Model of libstdc++ `read_utf8_code_point`: decode one code point from the
front of a byte list. A lone continuation byte, an overlong form, a lead
byte above 0xF4, a bad continuation byte or an encoding above U+10FFFF is
`invalid`; a multi-byte lead with fewer bytes available than the sequence
length it announces is `incomplete` (the available-length test comes before
any look at the trailing bytes, as in the C++ source). Three-byte encodings
of surrogate code points are NOT rejected. -/
def read_utf8_code_point : List Nat → ReadResult
  | [] => .incomplete
  | c1 :: rest =>
    if c1 < 0x80 then
      .ok c1 rest
    else if c1 < 0xC2 then
      -- continuation byte or overlong two-byte sequence
      .invalid
    else if c1 < 0xE0 then
      -- two-byte sequence
      match rest with
      | [] => .incomplete
      | c2 :: rest2 =>
        if is_cont c2 then .ok ((c1 <<< 6) + c2 - 0x3080) rest2 else .invalid
    else if c1 < 0xF0 then
      -- three-byte sequence: fewer than three bytes available is incomplete
      match rest with
      | c2 :: c3 :: rest3 =>
        if !is_cont c2 then .invalid
        else if c1 == 0xE0 && c2 < 0xA0 then .invalid  -- overlong
        else if !is_cont c3 then .invalid
        else .ok ((c1 <<< 12) + (c2 <<< 6) + c3 - 0xE2080) rest3
      | _ => .incomplete
    else if c1 < 0xF5 then
      -- four-byte sequence: fewer than four bytes available is incomplete
      match rest with
      | c2 :: c3 :: c4 :: rest4 =>
        if !is_cont c2 then .invalid
        else if c1 == 0xF0 && c2 < 0x90 then .invalid  -- overlong
        else if c1 == 0xF4 && 0x90 ≤ c2 then .invalid  -- above U+10FFFF
        else if !is_cont c3 then .invalid
        else if !is_cont c4 then .invalid
        else .ok ((c1 <<< 18) + (c2 <<< 12) + (c3 <<< 6) + c4 - 0x3C82080) rest4
      | _ => .incomplete
    else
      .invalid

/-- Model of libstdc++ `write_utf16_code_point`: a code point below 0x10000
becomes one code unit, anything else becomes a surrogate pair
(`lead = (0xD800 - (0x10000 >> 10)) + (c >> 10)`, `trail = 0xDC00 + (c & 0x3FF)`). -/
def write_utf16_code_point (cp : Nat) : List Nat :=
  if cp < 0x10000 then [cp]
  else [0xD7C0 + (cp >>> 10), 0xDC00 + (cp &&& 0x3FF)]

-- Length decrease lemma for the decoder, used for termination of `utf16_in`.
set_option maxHeartbeats 1600000 in
theorem read_utf8_code_point_shrink {l rest : List Nat} {cp : Nat}
    (h : read_utf8_code_point l = .ok cp rest) : rest.length < l.length := by
  match l with
  | [] => exact ReadResult.noConfusion h
  | [c1] =>
    simp only [read_utf8_code_point] at h
    repeat' split at h
    all_goals first
      | exact ReadResult.noConfusion h
      | (obtain ⟨-, rfl⟩ := ReadResult.ok.inj h
         simp only [List.length_cons, List.length_nil]; omega)
  | [c1, c2] =>
    simp only [read_utf8_code_point] at h
    repeat' split at h
    all_goals first
      | exact ReadResult.noConfusion h
      | (obtain ⟨-, rfl⟩ := ReadResult.ok.inj h
         simp only [List.length_cons, List.length_nil]; omega)
  | [c1, c2, c3] =>
    simp only [read_utf8_code_point] at h
    repeat' split at h
    all_goals first
      | exact ReadResult.noConfusion h
      | (obtain ⟨-, rfl⟩ := ReadResult.ok.inj h
         simp only [List.length_cons, List.length_nil]; omega)
  | c1 :: c2 :: c3 :: c4 :: t =>
    simp only [read_utf8_code_point] at h
    repeat' split at h
    all_goals first
      | exact ReadResult.noConfusion h
      | (obtain ⟨-, rfl⟩ := ReadResult.ok.inj h
         simp only [List.length_cons, List.length_nil]; omega)

/-- Result of a whole conversion, mirroring `std::codecvt_base::result` as
used by the facet: `ok` with the full output, `part` (the C++ `partial`)
with the output produced before an incomplete trailing sequence stopped the
loop, or `err` (the C++ `error`) for an invalid sequence. -/
inductive CodecvtResult where
  | ok (out : List Nat)
  | part (out : List Nat)
  | err
deriving DecidableEq

/-- Behavior of the `wstring_convert` wrappers in the header around a
conversion result: on `ok` and on `partial` the converted output is returned
(`__do_str_codecvt` keeps the converted prefix on `partial` and does not
throw); on `error` the conversion throws `range_error`, which the `catch` in
the header turns into the empty string. -/
def convertOrEmpty : CodecvtResult → List Nat
  | .ok out => out
  | .part out => out
  | .err => []

/-- Model of the libstdc++ `utf16_in` loop driving `from_bytes`: decode a
UTF-8 byte list to UTF-16 code units. An invalid sequence is an error; an
incomplete trailing sequence stops the loop with the units decoded so far
(the C++ `partial` result). -/
def utf16_in (l : List Nat) : CodecvtResult :=
  if l = [] then
    .ok []
  else
    match h : read_utf8_code_point l with
    | .invalid => .err
    | .incomplete => .part []
    | .ok cp rest =>
      if cp > 0x10FFFF then .err
      else
        match utf16_in rest with
        | .ok us => .ok (write_utf16_code_point cp ++ us)
        | .part us => .part (write_utf16_code_point cp ++ us)
        | .err => .err
termination_by l.length
decreasing_by exact read_utf8_code_point_shrink h

/-- Model of libstdc++ `write_utf8_code_point`: minimal-length UTF-8 encoding
of a code point up to 0x10FFFF (larger values are unreachable in the callers). -/
def write_utf8_code_point (cp : Nat) : List Nat :=
  if cp < 0x80 then [cp]
  else if cp ≤ 0x7FF then
    [(cp >>> 6) + 0xC0, (cp &&& 0x3F) + 0x80]
  else if cp ≤ 0xFFFF then
    [(cp >>> 12) + 0xE0, ((cp >>> 6) &&& 0x3F) + 0x80, (cp &&& 0x3F) + 0x80]
  else if cp ≤ 0x10FFFF then
    [(cp >>> 18) + 0xF0, ((cp >>> 12) &&& 0x3F) + 0x80, ((cp >>> 6) &&& 0x3F) + 0x80,
      (cp &&& 0x3F) + 0x80]
  else []

/-- Model of the libstdc++ `utf16_out` loop driving `to_bytes`: encode a list
of code units to UTF-8. A high surrogate as the last unit leaves the loop
with the bytes encoded so far (the C++ `partial` result); a high surrogate
followed by anything but a low surrogate, a lone low surrogate and a unit
above 0x10FFFF are errors. Non-surrogate units are encoded directly, which
with 32-bit elements covers supplementary-plane units. -/
def utf16_out : List Nat → CodecvtResult
  | [] => .ok []
  | c :: rest =>
    if 0xD800 ≤ c ∧ c ≤ 0xDBFF then
      match rest with
      | [] => .part []  -- incomplete surrogate pair at the end of the input
      | c2 :: rest2 =>
        if 0xDC00 ≤ c2 ∧ c2 ≤ 0xDFFF then
          -- surrogate_pair_to_code_point: (c << 10) + c2 - 0x35FDC00
          if (c <<< 10) + c2 - 0x35FDC00 > 0x10FFFF then .err
          else
            match utf16_out rest2 with
            | .ok bs => .ok (write_utf8_code_point ((c <<< 10) + c2 - 0x35FDC00) ++ bs)
            | .part bs => .part (write_utf8_code_point ((c <<< 10) + c2 - 0x35FDC00) ++ bs)
            | .err => .err
        else .err
    else if 0xDC00 ≤ c ∧ c ≤ 0xDFFF then
      .err  -- lone low surrogate
    else if c > 0x10FFFF then
      .err
    else
      match utf16_out rest with
      | .ok bs => .ok (write_utf8_code_point c ++ bs)
      | .part bs => .part (write_utf8_code_point c ++ bs)
      | .err => .err

/-- Model of `utf8ToUtf16` from the header: `from_bytes` through
`codecvt_utf8_utf16< wchar_t >`. A conversion error (`range_error`) is
caught and yields the empty wide string; a partial conversion returns the
decoded prefix. -/
def utf8ToUtf16 (s : List Nat) : List Nat := convertOrEmpty (utf16_in s)

/-- Model of the `std::u16string` overload of `utf16ToUtf8` from the header
(the 2-byte code-unit path): `to_bytes` through
`codecvt_utf8_utf16< char16_t >`, with the same error and partial behavior. -/
def utf16ToUtf8_u16 (s : List Nat) : List Nat := convertOrEmpty (utf16_out s)

/-- Model of the `std::u32string` overload of `utf16ToUtf8` from the header
(the 4-byte code-unit path): `to_bytes` through
`codecvt_utf8_utf16< char32_t >`, with the same error and partial behavior.
The facet runs the same UTF-16 output routine; the wider elements simply may
carry values above 0xFFFF, which the routine encodes directly. -/
def utf16ToUtf8_u32 (s : List Nat) : List Nat := convertOrEmpty (utf16_out s)

/-- A Unicode scalar value: a code point that is not a surrogate. Valid UTF-32
text is a sequence of these, one code unit per code point. -/
def ValidScalar (cp : Nat) : Prop := cp < 0x110000 ∧ ¬(0xD800 ≤ cp ∧ cp ≤ 0xDFFF)

instance (cp : Nat) : Decidable (ValidScalar cp) := by
  unfold ValidScalar; infer_instance

/-- Reference UTF-8 encoding of one code point, written directly from the
UTF-8 specification (division and remainder by powers of 64). This is the
spec-side definition against which the conversion pipeline is compared. -/
def utf8EncodeChar (cp : Nat) : List Nat :=
  if cp < 0x80 then [cp]
  else if cp < 0x800 then
    [0xC0 + cp / 64, 0x80 + cp % 64]
  else if cp < 0x10000 then
    [0xE0 + cp / 4096, 0x80 + cp / 64 % 64, 0x80 + cp % 64]
  else
    [0xF0 + cp / 262144, 0x80 + cp / 4096 % 64, 0x80 + cp / 64 % 64, 0x80 + cp % 64]

/-- Reference UTF-8 encoding of a code-point sequence. -/
def utf8Encode (l : List Nat) : List Nat := l.flatMap utf8EncodeChar

/-- UTF-16 code-unit sequence for a code-point sequence. -/
def utf16Encode (l : List Nat) : List Nat := l.flatMap write_utf16_code_point

/-- Spec-side description of a truncated trailing sequence: a buffer tail
whose first byte is a multi-byte lead (two-byte leads 0xC2..0xDF, three-byte
leads 0xE0..0xEF, four-byte leads 0xF0..0xF4) announcing more bytes than the
tail holds. The decoder classifies exactly these tails as incomplete, before
looking at any of the trailing bytes. -/
def IncompleteFragment (t : List Nat) : Prop :=
  ∃ c1 r, t = c1 :: r ∧
    ((0xC2 ≤ c1 ∧ c1 ≤ 0xDF ∧ t.length < 2) ∨
     (0xE0 ≤ c1 ∧ c1 ≤ 0xEF ∧ t.length < 3) ∨
     (0xF0 ≤ c1 ∧ c1 ≤ 0xF4 ∧ t.length < 4))

/-- Lifting of a function over the output payload of a conversion result;
used to state how the conversion loops treat one leading character. -/
def mapOut (f : List Nat → List Nat) : CodecvtResult → CodecvtResult
  | .ok out => .ok (f out)
  | .part out => .part (f out)
  | .err => .err
/-- One step of the sanitizing loop body of `escape`, applied to a byte value
in 0..255. The C++ source first replaces a double quote (34) with a space
(32), then replaces the byte with a space when it lies outside the printable
range: the comparison `*c < 32 || *c > 126` is on a signed `char`, under which
every byte value 128..255 is negative and hence below 32, so on byte values
the test is exactly "outside [32, 126]". -/
def sanitizeByte (b : Nat) : Nat :=
  let b1 := if b == 34 then 32 else b
  if b1 < 32 || 126 < b1 then 32 else b1

/-- The scanning loop of `escape`: walk forward from the start, stop at the
first NUL byte, and sanitize every byte before it. Bytes from the first NUL
onward are not touched (the loop never advances past the NUL). -/
def escapeScan : List Nat → List Nat
  | [] => []
  | b :: rest => if b == 0 then b :: rest else sanitizeByte b :: escapeScan rest

/-- Model of `escape(char *str, const size_t &size)`: the buffer is a list of
byte values whose length is the declared capacity `size`. The function first
stores 0 at index `size - 1` and then runs the scanning loop from index 0. -/
def escape (str : List Nat) (size : Nat) : List Nat :=
  escapeScan (str.set (size - 1) 0)

/-- Index of the first NUL byte of a buffer (its length if it has none). -/
def firstNul : List Nat → Nat
  | [] => 0
  | b :: rest => if b == 0 then 0 else firstNul rest + 1

/-- Instrumentation of the scanning loop of `escape`: the buffer indices the
loop reads through `*c`, when the scan starts at index `i`. Each iteration
reads the current byte; the loop also reads the NUL byte that stops it. -/
def escapeScanReads : List Nat → Nat → List Nat
  | [], _ => []
  | b :: rest, i => if b == 0 then [i] else i :: escapeScanReads rest (i + 1)

/-- Instrumentation of the scanning loop of `escape`: the buffer indices the
loop writes through `*c = ...`. A write happens exactly when the byte is a
double quote or lies outside the printable range. -/
def escapeScanWrites : List Nat → Nat → List Nat
  | [], _ => []
  | b :: rest, i =>
    if b == 0 then []
    else if b == 34 || b < 32 || 126 < b then i :: escapeScanWrites rest (i + 1)
    else escapeScanWrites rest (i + 1)

/-- All buffer indices read by `escape`: the scan runs over the buffer as it
stands after the NUL byte has been forced at index `size - 1`. -/
def escapeReads (str : List Nat) (size : Nat) : List Nat :=
  escapeScanReads (str.set (size - 1) 0) 0

/-- All buffer indices written by `escape`: the unconditional store of the NUL
terminator at `size - 1`, followed by the writes of the scanning loop. -/
def escapeWrites (str : List Nat) (size : Nat) : List Nat :=
  (size - 1) :: escapeScanWrites (str.set (size - 1) 0) 0

/-- Memory byte layout of the 4-byte union `SingleSplit4Bytes`: the `split`
member exposes the bytes of `single` in memory order, which is determined by
the platform byte order (least significant byte first on a little-endian
platform, most significant byte first on a big-endian one). -/
def SingleSplit4Bytes_split (bigEndianPlatform : Bool) (single : Nat) : List Nat :=
  if bigEndianPlatform then
    [(single >>> 24) &&& 0xFF, (single >>> 16) &&& 0xFF, (single >>> 8) &&& 0xFF,
      single &&& 0xFF]
  else
    [single &&& 0xFF, (single >>> 8) &&& 0xFF, (single >>> 16) &&& 0xFF,
      (single >>> 24) &&& 0xFF]

/-- Model of `isBigEndian()`: build `SingleSplit4Bytes(0x01020304)` and test
whether the first byte of its `split` view equals 1. The platform byte order
is an explicit parameter of the model. -/
def isBigEndian (bigEndianPlatform : Bool) : Bool :=
  (SingleSplit4Bytes_split bigEndianPlatform 0x01020304).getD 0 0 == 1

/-- Model of `__builtin_bswap16` / `_byteswap_ushort`: swap the two bytes of a
16-bit value. -/
def bswap16 (v : Nat) : Nat := ((v &&& 0xFF) <<< 8) ||| ((v >>> 8) &&& 0xFF)

/-- Model of `networkToHost(const uint16_t value)`: return the value unchanged
on a big-endian platform, otherwise swap its two bytes. -/
def networkToHost (bigEndianPlatform : Bool) (v : Nat) : Nat :=
  if isBigEndian bigEndianPlatform then v else bswap16 v

/-- Model of the `while (ifs.good())` loop of `readFile`. The stream state is
the `good()` flag together with the bytes not yet consumed; each iteration
reads up to 256 bytes into `buf` and appends the `gcount()` bytes obtained.
The stream stays good exactly when the full 256 bytes were delivered;
otherwise end-of-file was reached, which sets the fail bit. The fuel-free
recursion mirrors the loop; it terminates because each good iteration either
consumes 256 bytes or leaves the good state. -/
def readFile_loop (good : Bool) (data content : List Nat) : List Nat :=
  if good then
    readFile_loop ((data.take 256).length == 256) (data.drop 256) (content ++ data.take 256)
  else
    content
termination_by 2 * data.length + (if good then 1 else 0)
decreasing_by
  rename_i hg
  simp only [hg, List.length_take, List.length_drop, beq_iff_eq, if_true]
  split <;> omega

/-- Model of `readFile(const std::string &path)`: the file system maps the
path either to no file (`none`) or to the file's byte content. Opening a
missing or unreadable file sets the fail bit, so `good()` is false and the
loop body never runs; an `ifstream` throws nothing by default, the failure
is observable only through the empty result. -/
def readFile : Option (List Nat) → List Nat
  | none => readFile_loop false [] []
  | some data => readFile_loop true data []

theorem sanitizeByte_eq (b : Nat) :
    sanitizeByte b = if b = 34 ∨ b < 32 ∨ 126 < b then 32 else b := by
  unfold sanitizeByte
  simp only [beq_iff_eq, Bool.or_eq_true, decide_eq_true_eq]
  split_ifs with h1 h2 h3 h4 h5 <;> omega

theorem sanitizeByte_replaced {b : Nat} (h : b = 34 ∨ b < 32 ∨ 126 < b) :
    sanitizeByte b = 32 := by
  rw [sanitizeByte_eq, if_pos h]

theorem sanitizeByte_kept {b : Nat} (h34 : b ≠ 34) (hlo : 32 ≤ b) (hhi : b ≤ 126) :
    sanitizeByte b = b := by
  rw [sanitizeByte_eq, if_neg (by omega)]

theorem sanitizeByte_range (b : Nat) :
    32 ≤ sanitizeByte b ∧ sanitizeByte b ≤ 126 ∧ sanitizeByte b ≠ 34 := by
  rw [sanitizeByte_eq]
  split_ifs with h1 <;> omega

theorem escapeScan_length (m : List Nat) : (escapeScan m).length = m.length := by
  induction m with
  | nil => rfl
  | cons b rest ih =>
    simp only [escapeScan]
    split <;> simp [ih]

theorem escapeScan_getD_lt (m : List Nat) (i : Nat) (h : i < firstNul m) :
    (escapeScan m).getD i 0 = sanitizeByte (m.getD i 0) := by
  induction m generalizing i with
  | nil => simp [firstNul] at h
  | cons b rest ih =>
    simp only [escapeScan, firstNul] at *
    by_cases hb : b == 0
    · simp [hb] at h
    · simp only [hb, if_false, Bool.false_eq_true] at *
      cases i with
      | zero => simp
      | succ j =>
        simp only [List.getD_cons_succ]
        exact ih j (by omega)

theorem escapeScan_getD_ge (m : List Nat) (i : Nat) (h : firstNul m ≤ i) :
    (escapeScan m).getD i 0 = m.getD i 0 := by
  induction m generalizing i with
  | nil => simp [escapeScan]
  | cons b rest ih =>
    simp only [escapeScan, firstNul] at *
    by_cases hb : b == 0
    · simp [hb]
    · simp only [hb, if_false, Bool.false_eq_true] at *
      cases i with
      | zero => omega
      | succ j =>
        simp only [List.getD_cons_succ]
        exact ih j (by omega)

theorem firstNul_le (m : List Nat) (j : Nat) (hj : j < m.length) (h : m.getD j 0 = 0) :
    firstNul m ≤ j := by
  induction m generalizing j with
  | nil => simp at hj
  | cons b rest ih =>
    simp only [firstNul]
    by_cases hb : b == 0
    · simp [hb]
    · simp only [hb, Bool.false_eq_true, if_false]
      cases j with
      | zero => simp_all
      | succ j2 =>
        simp only [List.getD_cons_succ] at h
        simp only [List.length_cons] at hj
        have := ih j2 (by omega) h
        omega

theorem set_last_getD {str : List Nat} {size : Nat}
    (hlen : str.length = size) (hsz : 1 ≤ size) :
    (str.set (size - 1) 0).getD (size - 1) 0 = 0 := by
  have hil : size - 1 < str.length := by omega
  simp [List.getD_eq_getElem?_getD, List.getElem?_set_self, hil]

theorem set_other_getD {str : List Nat} {size i : Nat} (hne : i ≠ size - 1) :
    (str.set (size - 1) 0).getD i 0 = str.getD i 0 := by
  simp [List.getD_eq_getElem?_getD, List.getElem?_set_ne (by omega : size - 1 ≠ i)]

/-- C4: for a buffer of declared capacity size ≥ 1, after escape the byte at
index size-1 is NUL; every byte strictly before the first NUL that was a
double quote or fell outside printable ASCII [32,126] is a space; every other
byte before the first NUL is unchanged. -/
theorem escape_correct (str : List Nat) (size : Nat)
    (hlen : str.length = size) (hsz : 1 ≤ size) :
    (escape str size).getD (size - 1) 0 = 0 ∧
    (∀ i, i < firstNul (str.set (size - 1) 0) →
      ((str.getD i 0 = 34 ∨ str.getD i 0 < 32 ∨ 126 < str.getD i 0) →
          (escape str size).getD i 0 = 32) ∧
      (str.getD i 0 ≠ 34 → 32 ≤ str.getD i 0 → str.getD i 0 ≤ 126 →
          (escape str size).getD i 0 = str.getD i 0)) := by
  have hmlen : (str.set (size - 1) 0).length = size := by simp [hlen]
  have hlast : (str.set (size - 1) 0).getD (size - 1) 0 = 0 := set_last_getD hlen hsz
  have hk : firstNul (str.set (size - 1) 0) ≤ size - 1 :=
    firstNul_le _ _ (by omega) hlast
  constructor
  · rw [escape, escapeScan_getD_ge _ _ hk]
    exact hlast
  · intro i hi
    have hne : i ≠ size - 1 := by omega
    have hmi : (str.set (size - 1) 0).getD i 0 = str.getD i 0 := set_other_getD hne
    have hscan : (escape str size).getD i 0 = sanitizeByte (str.getD i 0) := by
      rw [escape, escapeScan_getD_lt _ _ hi, hmi]
    constructor
    · intro hbad
      rw [hscan]
      exact sanitizeByte_replaced hbad
    · intro h34 hlo hhi
      rw [hscan]
      exact sanitizeByte_kept h34 hlo hhi

/-- Witness for C4 at the spec example buffer "ab\"cd\x01ef" with capacity 8:
the terminator is forced, the quote at index 2 and the 0x01 byte at index 5
become spaces, and the printable byte at index 0 is unchanged. -/
theorem escape_correct_witness :
    (escape [97, 98, 34, 99, 100, 1, 101, 102] 8).getD 7 0 = 0 ∧
    (escape [97, 98, 34, 99, 100, 1, 101, 102] 8).getD 2 0 = 32 ∧
    (escape [97, 98, 34, 99, 100, 1, 101, 102] 8).getD 5 0 = 32 ∧
    (escape [97, 98, 34, 99, 100, 1, 101, 102] 8).getD 0 0 = 97 := by
  have h := escape_correct [97, 98, 34, 99, 100, 1, 101, 102] 8 rfl (by omega)
  exact ⟨h.1, (h.2 2 (by decide)).1 (by decide), (h.2 5 (by decide)).1 (by decide),
    (h.2 0 (by decide)).2 (by decide) (by decide) (by decide)⟩

theorem escapeScanWrites_lt (m : List Nat) (i j : Nat)
    (h : j ∈ escapeScanWrites m i) : j < i + firstNul m := by
  induction m generalizing i with
  | nil => simp [escapeScanWrites] at h
  | cons b rest ih =>
    simp only [escapeScanWrites, firstNul] at *
    by_cases hb : b == 0
    · simp [hb] at h
    · simp only [hb, Bool.false_eq_true, if_false] at *
      split at h
      · rcases List.mem_cons.mp h with rfl | hmem
        · omega
        · have := ih (i + 1) hmem
          omega
      · have := ih (i + 1) h
        omega

theorem escapeScanReads_le (m : List Nat) (i j : Nat)
    (h : j ∈ escapeScanReads m i) : j ≤ i + firstNul m := by
  induction m generalizing i with
  | nil => simp [escapeScanReads] at h
  | cons b rest ih =>
    simp only [escapeScanReads, firstNul] at *
    by_cases hb : b == 0
    · simp only [hb, if_true] at *
      simp at h
      omega
    · simp only [hb, Bool.false_eq_true, if_false] at *
      rcases List.mem_cons.mp h with rfl | hmem
      · omega
      · have := ih (i + 1) hmem
        omega

/-- C5: for a buffer of declared capacity size ≥ 1, escape writes only to
indices below size, and the scan reads only indices up to the first NUL of
the buffer as it stands after the terminator has been forced; in particular
every access is within bounds. -/
theorem escape_access_safe (str : List Nat) (size : Nat)
    (hlen : str.length = size) (hsz : 1 ≤ size) :
    (∀ j ∈ escapeWrites str size, j < size) ∧
    (∀ j ∈ escapeReads str size, j ≤ firstNul (str.set (size - 1) 0)) ∧
    (∀ j ∈ escapeReads str size, j < size) := by
  have hlast : (str.set (size - 1) 0).getD (size - 1) 0 = 0 := set_last_getD hlen hsz
  have hk : firstNul (str.set (size - 1) 0) ≤ size - 1 :=
    firstNul_le _ _ (by simp [hlen]; omega) hlast
  refine ⟨?_, ?_, ?_⟩
  · intro j hj
    rcases List.mem_cons.mp hj with rfl | hmem
    · omega
    · have := escapeScanWrites_lt _ 0 j hmem
      omega
  · intro j hj
    have := escapeScanReads_le _ 0 j hj
    omega
  · intro j hj
    have := escapeScanReads_le _ 0 j hj
    omega

/-- Witness for C5 at the buffer [65, 34, 66] with capacity 3. -/
theorem escape_access_safe_witness :
    (∀ j ∈ escapeWrites [65, 34, 66] 3, j < 3) ∧
    (∀ j ∈ escapeReads [65, 34, 66] 3, j ≤ firstNul ([65, 34, 66].set 2 0)) := by
  have h := escape_access_safe [65, 34, 66] 3 rfl (by omega)
  exact ⟨h.1, h.2.1⟩

theorem sanitizeByte_ne_zero (b : Nat) : ¬sanitizeByte b == 0 := by
  have := sanitizeByte_range b
  simp only [beq_iff_eq]
  omega

theorem escapeScan_idem (m : List Nat) : escapeScan (escapeScan m) = escapeScan m := by
  induction m with
  | nil => rfl
  | cons b rest ih =>
    by_cases hb : b == 0
    · simp only [escapeScan, hb, if_true]
    · simp only [escapeScan, hb, Bool.false_eq_true, if_false, sanitizeByte_ne_zero b,
        Bool.false_eq_true, if_false, ih, List.cons.injEq, and_true]
      have hr := sanitizeByte_range (sanitizeByte b)
      have h := sanitizeByte_range b
      exact sanitizeByte_kept h.2.2 h.1 h.2.1

theorem set_zero_of_getD_zero (l : List Nat) (i : Nat) (h : l.getD i 0 = 0) :
    l.set i 0 = l := by
  induction l generalizing i with
  | nil => rfl
  | cons b rest ih =>
    cases i with
    | zero => simp_all
    | succ j =>
      simp only [List.getD_cons_succ] at h
      simp [List.set_cons_succ, ih j h]

/-- C10: escape is idempotent: applying it twice to a buffer of declared
capacity size ≥ 1 yields the same contents as applying it once, since after
one pass every byte before the first NUL is printable non-quote ASCII and the
final byte is already NUL. -/
theorem escape_idempotent (str : List Nat) (size : Nat)
    (hlen : str.length = size) (hsz : 1 ≤ size) :
    escape (escape str size) size = escape str size := by
  have hlast : (str.set (size - 1) 0).getD (size - 1) 0 = 0 := set_last_getD hlen hsz
  have hk : firstNul (str.set (size - 1) 0) ≤ size - 1 :=
    firstNul_le _ _ (by simp [hlen]; omega) hlast
  have hscan_last : (escapeScan (str.set (size - 1) 0)).getD (size - 1) 0 = 0 := by
    rw [escapeScan_getD_ge _ _ hk]; exact hlast
  show escapeScan ((escapeScan (str.set (size - 1) 0)).set (size - 1) 0) = _
  rw [set_zero_of_getD_zero _ _ hscan_last, escapeScan_idem]
  rfl

/-- Witness for C10 at the buffer [97, 34, 1] with capacity 3. -/
theorem escape_idempotent_witness :
    escape (escape [97, 34, 1] 3) 3 = escape [97, 34, 1] 3 :=
  escape_idempotent [97, 34, 1] 3 rfl (by omega)

/-- C7: isBigEndian is a pure function of the platform byte order, and it
returns true exactly when the first byte of the in-memory layout of
0x01020304 is its most significant byte 0x01 (which happens precisely on a
big-endian platform). -/
theorem isBigEndian_correct :
    ∀ p : Bool, isBigEndian p = p ∧
      (isBigEndian p = true ↔ (SingleSplit4Bytes_split p 0x01020304).getD 0 0 = 0x01) := by
  decide

theorem bswap16_eq (v : Nat) (hv : v < 65536) : bswap16 v = v % 256 * 256 + v / 256 := by
  have e1 : v &&& 255 = v % 256 := by
    have := Nat.and_pow_two_sub_one_eq_mod v 8
    norm_num at this
    exact this
  have e2 : v >>> 8 = v / 256 := by
    rw [Nat.shiftRight_eq_div_pow]
  have e3 : v / 256 &&& 255 = v / 256 := by
    have := Nat.and_pow_two_sub_one_eq_mod (v / 256) 8
    norm_num at this
    omega
  have e4 : (v % 256) <<< 8 = 2 ^ 8 * (v % 256) := by
    rw [Nat.shiftLeft_eq]
    ring
  have e5 : 2 ^ 8 * (v % 256) + v / 256 = 2 ^ 8 * (v % 256) ||| v / 256 :=
    Nat.mul_add_lt_is_or (by omega) _
  rw [bswap16, e1, e2, e3, e4, ← e5]
  ring

/-- C6: networkToHost returns the value unchanged on a big-endian platform
and returns it with its two bytes swapped on a little-endian platform. -/
theorem networkToHost_correct (v : Nat) (hv : v < 65536) :
    networkToHost true v = v ∧ networkToHost false v = v % 256 * 256 + v / 256 := by
  constructor
  · rw [networkToHost, if_pos (by decide)]
  · rw [networkToHost, if_neg (by decide)]
    exact bswap16_eq v hv

/-- Witness for C6: networkToHost16(0x1234) is 0x3412 on a little-endian host
and 0x1234 on a big-endian host. -/
theorem networkToHost_correct_witness :
    networkToHost true 0x1234 = 0x1234 ∧ networkToHost false 0x1234 = 0x3412 := by
  have h := networkToHost_correct 0x1234 (by norm_num)
  refine ⟨h.1, ?_⟩
  rw [h.2]

theorem readFile_loop_good (n : Nat) :
    ∀ data content : List Nat, data.length ≤ n →
      readFile_loop true data content = content ++ data := by
  induction n with
  | zero =>
    intro data content h
    have hdata : data = [] := List.eq_nil_of_length_eq_zero (by omega)
    subst hdata
    rw [readFile_loop, readFile_loop]
    simp
  | succ n ih =>
    intro data content h
    rw [readFile_loop]
    simp only [if_true]
    by_cases hfull : ((data.take 256).length == 256) = true
    · have h256 : 256 ≤ data.length := by
        simp only [List.length_take, beq_iff_eq] at hfull
        omega
      rw [hfull]
      have hrec := ih (data.drop 256) (content ++ data.take 256) (by simp; omega)
      rw [hrec, List.append_assoc, List.take_append_drop]
    · have hlt : data.length < 256 := by
        simp only [List.length_take, beq_iff_eq] at hfull
        omega
      have hfalse : ((data.take 256).length == 256) = false := by
        simpa using hfull
      rw [hfalse, readFile_loop]
      simp only [Bool.false_eq_true, if_false]
      rw [List.take_of_length_le (by omega)]

/-- C9: reading a path that does not name an existing readable file returns
the empty byte buffer; the model is a total function, so no error escapes,
and the failure is visible only through the empty sentinel result. -/
theorem readFile_missing_empty : readFile none = [] := by
  rw [readFile, readFile_loop]
  simp

-- Sanity check of the model on an existing file: the loop returns exactly
-- the file content, 256-byte chunk by chunk.
theorem readFile_existing (data : List Nat) : readFile (some data) = data := by
  rw [readFile, readFile_loop_good data.length data [] le_rfl]
  simp


set_option maxRecDepth 4096 in
theorem is_cont_low : ∀ x : Fin 64, is_cont (0x80 + x.val) = true := by decide

set_option maxRecDepth 16384 in
theorem is_cont_bounds : ∀ b : Fin 256, is_cont b.val = decide (0x80 ≤ b.val ∧ b.val < 0xC0) := by
  decide

theorem is_cont_true_iff {b : Nat} (hb : b < 256) :
    is_cont b = true ↔ 0x80 ≤ b ∧ b < 0xC0 := by
  have := is_cont_bounds ⟨b, hb⟩
  simp only [decide_eq_true_eq] at this ⊢
  rw [this]
  simp

theorem write_utf8_eq {cp : Nat} (h : cp ≤ 0x10FFFF) :
    write_utf8_code_point cp = utf8EncodeChar cp := by
  have s6 : cp >>> 6 = cp / 64 := by rw [Nat.shiftRight_eq_div_pow]
  have s12 : cp >>> 12 = cp / 4096 := by rw [Nat.shiftRight_eq_div_pow]
  have s18 : cp >>> 18 = cp / 262144 := by rw [Nat.shiftRight_eq_div_pow]
  have a0 : cp &&& 63 = cp % 64 := by
    have := Nat.and_pow_two_sub_one_eq_mod cp 6
    norm_num at this
    exact this
  have a1 : cp / 64 &&& 63 = cp / 64 % 64 := by
    have := Nat.and_pow_two_sub_one_eq_mod (cp / 64) 6
    norm_num at this
    exact this
  have a2 : cp / 4096 &&& 63 = cp / 4096 % 64 := by
    have := Nat.and_pow_two_sub_one_eq_mod (cp / 4096) 6
    norm_num at this
    exact this
  rw [write_utf8_code_point, utf8EncodeChar]
  split_ifs with h1 h2 h3 h4 h5 h6 h7 h8 h9 <;>
    simp only [s6, s12, s18, a0, a1, a2, List.cons.injEq, and_true] <;> omega

theorem utf16_out_scalar_cons (cp : Nat) (rest : List Nat) (h : ValidScalar cp) :
    utf16_out (cp :: rest) =
      mapOut (fun bs => write_utf8_code_point cp ++ bs) (utf16_out rest) := by
  obtain ⟨hlt, hsur⟩ := h
  rw [utf16_out.eq_def]
  dsimp only
  rw [if_neg (by omega), if_neg (by omega), if_neg (by omega)]
  cases utf16_out rest <;> rfl

theorem utf16_out_pair_cons (cp : Nat) (rest : List Nat)
    (hlo : 0x10000 ≤ cp) (hhi : cp ≤ 0x10FFFF) :
    utf16_out (write_utf16_code_point cp ++ rest) =
      mapOut (fun bs => write_utf8_code_point cp ++ bs) (utf16_out rest) := by
  have s10 : cp >>> 10 = cp / 1024 := by rw [Nat.shiftRight_eq_div_pow]
  have a10 : cp &&& 1023 = cp % 1024 := by
    have := Nat.and_pow_two_sub_one_eq_mod cp 10
    norm_num at this
    exact this
  rw [write_utf16_code_point, if_neg (by omega)]
  simp only [s10, a10, List.cons_append, List.nil_append]
  have hsl : (0xD7C0 + cp / 1024) <<< 10 = (0xD7C0 + cp / 1024) * 1024 := by
    rw [Nat.shiftLeft_eq]
  rw [utf16_out.eq_def]
  dsimp only
  rw [if_pos (by omega)]
  have hcomb : (0xD7C0 + cp / 1024) <<< 10 + (0xDC00 + cp % 1024) - 0x35FDC00 = cp := by
    omega
  rw [if_pos (by omega), hcomb, if_neg (by omega)]
  cases utf16_out rest <;> rfl

theorem utf16_out_units (l : List Nat) (h : ∀ cp ∈ l, ValidScalar cp) :
    utf16_out (utf16Encode l) = .ok (utf8Encode l) := by
  induction l with
  | nil => simp [utf16Encode, utf8Encode, utf16_out.eq_def]
  | cons cp t ih =>
    obtain ⟨hcp1, hcp2⟩ := h cp (by simp)
    have ht : ∀ x ∈ t, ValidScalar x := fun x hx => h x (by simp [hx])
    have hw : write_utf8_code_point cp = utf8EncodeChar cp := write_utf8_eq (by omega)
    show utf16_out (write_utf16_code_point cp ++ utf16Encode t) = _
    by_cases hlt : cp < 0x10000
    · rw [write_utf16_code_point, if_pos hlt]
      show utf16_out (cp :: utf16Encode t) = _
      rw [utf16_out_scalar_cons cp _ ⟨hcp1, hcp2⟩, ih ht]
      simp [mapOut, utf8Encode, hw]
    · rw [utf16_out_pair_cons cp _ (by omega) (by omega), ih ht]
      simp [mapOut, utf8Encode, hw]

/-- C1: for every wide buffer of 4-byte code units holding valid UTF-32 text
(one code unit per code point, all Unicode scalar values, including
supplementary-plane code points), the u32string overload of utf16ToUtf8
produces the UTF-8 encoding of that text. -/
theorem utf16ToUtf8_u32_utf32 (l : List Nat) (h : ∀ cp ∈ l, ValidScalar cp) :
    utf16ToUtf8_u32 l = utf8Encode l := by
  have key : utf16_out l = .ok (utf8Encode l) := by
    induction l with
    | nil => simp [utf16_out.eq_def, utf8Encode]
    | cons cp t ih =>
      obtain ⟨hcp1, hcp2⟩ := h cp (by simp)
      have ht : ∀ x ∈ t, ValidScalar x := fun x hx => h x (by simp [hx])
      rw [utf16_out_scalar_cons cp t ⟨hcp1, hcp2⟩, ih ht]
      simp [mapOut, utf8Encode, write_utf8_eq (show cp ≤ 0x10FFFF by omega)]
  rw [utf16ToUtf8_u32, key]
  rfl

/-- Witness for C1 at the buffer [U+0061, U+1F600], whose second unit is a
supplementary-plane code point stored as a single 4-byte unit. -/
theorem utf16ToUtf8_u32_utf32_witness :
    utf16ToUtf8_u32 [0x61, 0x1F600] = utf8Encode [0x61, 0x1F600] ∧
    utf8Encode [0x61, 0x1F600] = [0x61, 0xF0, 0x9F, 0x98, 0x80] :=
  ⟨utf16ToUtf8_u32_utf32 [0x61, 0x1F600] (by decide), by decide⟩

theorem utf8EncodeChar_ne_nil (cp : Nat) : utf8EncodeChar cp ≠ [] := by
  rw [utf8EncodeChar]
  split_ifs <;> simp

theorem read_encode (cp : Nat) (rest : List Nat) (h : cp ≤ 0x10FFFF) :
    read_utf8_code_point (utf8EncodeChar cp ++ rest) = .ok cp rest := by
  rw [utf8EncodeChar]
  by_cases h1 : cp < 0x80
  · rw [if_pos h1]
    rw [read_utf8_code_point.eq_def]
    dsimp only [List.cons_append, List.nil_append]
    rw [if_pos h1]
  · rw [if_neg h1]
    by_cases h2 : cp < 0x800
    · rw [if_pos h2]
      have hcont : is_cont (0x80 + cp % 64) = true :=
        is_cont_low ⟨cp % 64, Nat.mod_lt _ (by omega)⟩
      rw [read_utf8_code_point.eq_def]
      dsimp only [List.cons_append, List.nil_append]
      rw [if_neg (by omega), if_neg (by omega), if_pos (by omega), if_pos hcont]
      have hsl : (0xC0 + cp / 64) <<< 6 = (0xC0 + cp / 64) * 64 := by
        rw [Nat.shiftLeft_eq]
      simp only [ReadResult.ok.injEq, and_true]
      omega
    · rw [if_neg h2]
      by_cases h3 : cp < 0x10000
      · rw [if_pos h3]
        have hcont2 : is_cont (0x80 + cp / 64 % 64) = true :=
          is_cont_low ⟨cp / 64 % 64, Nat.mod_lt _ (by omega)⟩
        have hcont3 : is_cont (0x80 + cp % 64) = true :=
          is_cont_low ⟨cp % 64, Nat.mod_lt _ (by omega)⟩
        rw [read_utf8_code_point.eq_def]
        dsimp only [List.cons_append, List.nil_append]
        rw [if_neg (by omega), if_neg (by omega), if_neg (by omega), if_pos (by omega)]
        rw [if_neg (by simp [hcont2]), if_neg ?hov, if_neg (by simp [hcont3])]
        case hov =>
          simp only [Bool.and_eq_true, beq_iff_eq, decide_eq_true_eq, not_and]
          intro he0
          have : cp / 4096 = 0 := by omega
          omega
        have hsl1 : (0xE0 + cp / 4096) <<< 12 = (0xE0 + cp / 4096) * 4096 := by
          rw [Nat.shiftLeft_eq]
        have hsl2 : (0x80 + cp / 64 % 64) <<< 6 = (0x80 + cp / 64 % 64) * 64 := by
          rw [Nat.shiftLeft_eq]
        simp only [ReadResult.ok.injEq, and_true]
        omega
      · rw [if_neg h3]
        have hcont2 : is_cont (0x80 + cp / 4096 % 64) = true :=
          is_cont_low ⟨cp / 4096 % 64, Nat.mod_lt _ (by omega)⟩
        have hcont3 : is_cont (0x80 + cp / 64 % 64) = true :=
          is_cont_low ⟨cp / 64 % 64, Nat.mod_lt _ (by omega)⟩
        have hcont4 : is_cont (0x80 + cp % 64) = true :=
          is_cont_low ⟨cp % 64, Nat.mod_lt _ (by omega)⟩
        rw [read_utf8_code_point.eq_def]
        dsimp only [List.cons_append, List.nil_append]
        rw [if_neg (by omega), if_neg (by omega), if_neg (by omega), if_neg (by omega),
          if_pos (by omega)]
        rw [if_neg (by simp [hcont2]), if_neg ?hov4, if_neg ?hbig, if_neg (by simp [hcont3]),
          if_neg (by simp [hcont4])]
        case hov4 =>
          simp only [Bool.and_eq_true, beq_iff_eq, decide_eq_true_eq, not_and]
          intro hf0
          have : cp / 262144 = 0 := by omega
          omega
        case hbig =>
          simp only [Bool.and_eq_true, beq_iff_eq, decide_eq_true_eq, not_and]
          intro hf4
          have : cp / 262144 = 4 := by omega
          omega
        have hsl1 : (0xF0 + cp / 262144) <<< 18 = (0xF0 + cp / 262144) * 262144 := by
          rw [Nat.shiftLeft_eq]
        have hsl2 : (0x80 + cp / 4096 % 64) <<< 12 = (0x80 + cp / 4096 % 64) * 4096 := by
          rw [Nat.shiftLeft_eq]
        have hsl3 : (0x80 + cp / 64 % 64) <<< 6 = (0x80 + cp / 64 % 64) * 64 := by
          rw [Nat.shiftLeft_eq]
        simp only [ReadResult.ok.injEq, and_true]
        omega

theorem utf16_in_encode (l : List Nat) (h : ∀ cp ∈ l, cp ≤ 0x10FFFF) :
    utf16_in (utf8Encode l) = .ok (utf16Encode l) := by
  induction l with
  | nil => rw [utf16_in]; simp [utf8Encode, utf16Encode]
  | cons cp t ih =>
    have hcp := h cp (by simp)
    have ht : ∀ x ∈ t, x ≤ 0x10FFFF := fun x hx => h x (by simp [hx])
    have henc : utf8Encode (cp :: t) = utf8EncodeChar cp ++ utf8Encode t := by
      simp [utf8Encode]
    rw [utf16_in, if_neg (by
      rw [henc]
      intro hc
      exact utf8EncodeChar_ne_nil cp (List.append_eq_nil.mp (henc ▸ hc)).1)]
    rw [henc, read_encode cp _ hcp]
    dsimp only
    rw [if_neg (by omega), ih ht]
    dsimp only
    congr 1

/-- C2: for every valid UTF-8 narrow string (the encoding of a sequence of
Unicode scalar values, supplementary-plane code points included), converting
narrow to wide with utf8ToUtf16 and back with the 2-byte-width utf16ToUtf8
returns exactly the original string. -/
theorem utf8_roundtrip (l : List Nat) (h : ∀ cp ∈ l, ValidScalar cp) :
    utf16ToUtf8_u16 (utf8ToUtf16 (utf8Encode l)) = utf8Encode l := by
  have h1 : ∀ cp ∈ l, cp ≤ 0x10FFFF := fun cp hcp => by
    have := (h cp hcp).1
    omega
  rw [utf8ToUtf16, utf16_in_encode l h1]
  show utf16ToUtf8_u16 (utf16Encode l) = _
  rw [utf16ToUtf8_u16, utf16_out_units l h]
  rfl

/-- Witness for C2 at the code points [U+0041, U+20AC, U+1F600]: the encoded
bytes survive the round trip, and the last code point exercises the
surrogate-pair path of the 2-byte width. -/
theorem utf8_roundtrip_witness :
    utf16ToUtf8_u16 (utf8ToUtf16 (utf8Encode [0x41, 0x20AC, 0x1F600])) =
      utf8Encode [0x41, 0x20AC, 0x1F600] ∧
    utf8Encode [0x41, 0x20AC, 0x1F600] = [0x41, 0xE2, 0x82, 0xAC, 0xF0, 0x9F, 0x98, 0x80] :=
  ⟨utf8_roundtrip [0x41, 0x20AC, 0x1F600] (by decide), by decide⟩

theorem read_complete {l : List Nat} {cp : Nat} {rest : List Nat}
    (hb : ∀ b ∈ l, b < 256)
    (h : read_utf8_code_point l = .ok cp rest) :
    cp ≤ 0x10FFFF ∧ l = utf8EncodeChar cp ++ rest := by
  match l with
  | [] => exact ReadResult.noConfusion h
  | c1 :: t =>
    have hc1 : c1 < 256 := hb c1 (by simp)
    rw [read_utf8_code_point.eq_def] at h
    dsimp only at h
    by_cases h80 : c1 < 0x80
    · rw [if_pos h80] at h
      obtain ⟨rfl, rfl⟩ := ReadResult.ok.inj h
      refine ⟨by omega, ?_⟩
      rw [utf8EncodeChar, if_pos h80]
      rfl
    · rw [if_neg h80] at h
      by_cases hC2 : c1 < 0xC2
      · rw [if_pos hC2] at h
        exact ReadResult.noConfusion h
      · rw [if_neg hC2] at h
        by_cases hE0 : c1 < 0xE0
        · -- two-byte sequence
          rw [if_pos hE0] at h
          match t with
          | [] => exact ReadResult.noConfusion h
          | c2 :: r2 =>
            have hc2 : c2 < 256 := hb c2 (by simp)
            dsimp only at h
            by_cases hcont : is_cont c2 = true
            · rw [if_pos hcont] at h
              obtain ⟨rfl, rfl⟩ := ReadResult.ok.inj h
              obtain ⟨hc2lo, hc2hi⟩ := (is_cont_true_iff hc2).mp hcont
              have hsl : c1 <<< 6 = c1 * 64 := by rw [Nat.shiftLeft_eq]
              refine ⟨by omega, ?_⟩
              rw [utf8EncodeChar, if_neg (by omega), if_pos (by omega)]
              simp only [List.cons_append, List.nil_append, List.cons.injEq]
              refine ⟨by omega, by omega, trivial⟩
            · rw [if_neg hcont] at h
              exact ReadResult.noConfusion h
        · rw [if_neg hE0] at h
          by_cases hF0 : c1 < 0xF0
          · -- three-byte sequence
            rw [if_pos hF0] at h
            match t with
            | [] => exact ReadResult.noConfusion h
            | [c2] => exact ReadResult.noConfusion h
            | c2 :: c3 :: r3 =>
              have hc2 : c2 < 256 := hb c2 (by simp)
              have hc3 : c3 < 256 := hb c3 (by simp)
              dsimp only at h
              by_cases hcont2 : is_cont c2 = true
              · rw [if_neg (by simp [hcont2])] at h
                by_cases hov : (c1 == 0xE0 && decide (c2 < 0xA0)) = true
                · rw [if_pos hov] at h
                  exact ReadResult.noConfusion h
                · rw [if_neg hov] at h
                  simp only [Bool.and_eq_true, beq_iff_eq, decide_eq_true_eq, not_and,
                    not_lt] at hov
                  by_cases hcont3 : is_cont c3 = true
                  · rw [if_neg (by simp [hcont3])] at h
                    obtain ⟨rfl, rfl⟩ := ReadResult.ok.inj h
                    obtain ⟨hc2lo, hc2hi⟩ := (is_cont_true_iff hc2).mp hcont2
                    obtain ⟨hc3lo, hc3hi⟩ := (is_cont_true_iff hc3).mp hcont3
                    have hsl1 : c1 <<< 12 = c1 * 4096 := by rw [Nat.shiftLeft_eq]
                    have hsl2 : c2 <<< 6 = c2 * 64 := by rw [Nat.shiftLeft_eq]
                    refine ⟨by omega, ?_⟩
                    rw [utf8EncodeChar, if_neg (by omega), if_neg (by omega),
                      if_pos (by omega)]
                    simp only [List.cons_append, List.nil_append, List.cons.injEq]
                    refine ⟨by omega, by omega, by omega, trivial⟩
                  · rw [if_pos (by simp [hcont3])] at h
                    exact ReadResult.noConfusion h
              · rw [if_pos (by simp [hcont2])] at h
                exact ReadResult.noConfusion h
          · by_cases hF5 : c1 < 0xF5
            · -- four-byte sequence
              rw [if_neg hF0, if_pos hF5] at h
              match t with
              | [] => exact ReadResult.noConfusion h
              | [c2] => exact ReadResult.noConfusion h
              | [c2, c3] => exact ReadResult.noConfusion h
              | c2 :: c3 :: c4 :: r4 =>
                have hc2 : c2 < 256 := hb c2 (by simp)
                have hc3 : c3 < 256 := hb c3 (by simp)
                have hc4 : c4 < 256 := hb c4 (by simp)
                dsimp only at h
                by_cases hcont2 : is_cont c2 = true
                · rw [if_neg (by simp [hcont2])] at h
                  by_cases hov : (c1 == 0xF0 && decide (c2 < 0x90)) = true
                  · rw [if_pos hov] at h
                    exact ReadResult.noConfusion h
                  · rw [if_neg hov] at h
                    simp only [Bool.and_eq_true, beq_iff_eq, decide_eq_true_eq, not_and,
                      not_lt] at hov
                    by_cases hbig : (c1 == 0xF4 && decide (0x90 ≤ c2)) = true
                    · rw [if_pos hbig] at h
                      exact ReadResult.noConfusion h
                    · rw [if_neg hbig] at h
                      simp only [Bool.and_eq_true, beq_iff_eq, decide_eq_true_eq, not_and,
                        not_le] at hbig
                      by_cases hcont3 : is_cont c3 = true
                      · rw [if_neg (by simp [hcont3])] at h
                        by_cases hcont4 : is_cont c4 = true
                        · rw [if_neg (by simp [hcont4])] at h
                          obtain ⟨rfl, rfl⟩ := ReadResult.ok.inj h
                          obtain ⟨hc2lo, hc2hi⟩ := (is_cont_true_iff hc2).mp hcont2
                          obtain ⟨hc3lo, hc3hi⟩ := (is_cont_true_iff hc3).mp hcont3
                          obtain ⟨hc4lo, hc4hi⟩ := (is_cont_true_iff hc4).mp hcont4
                          have hsl1 : c1 <<< 18 = c1 * 262144 := by rw [Nat.shiftLeft_eq]
                          have hsl2 : c2 <<< 12 = c2 * 4096 := by rw [Nat.shiftLeft_eq]
                          have hsl3 : c3 <<< 6 = c3 * 64 := by rw [Nat.shiftLeft_eq]
                          refine ⟨by omega, ?_⟩
                          rw [utf8EncodeChar, if_neg (by omega), if_neg (by omega),
                            if_neg (by omega)]
                          simp only [List.cons_append, List.nil_append, List.cons.injEq]
                          refine ⟨by omega, by omega, by omega, by omega, trivial⟩
                        · rw [if_pos (by simp [hcont4])] at h
                          exact ReadResult.noConfusion h
                      · rw [if_pos (by simp [hcont3])] at h
                        exact ReadResult.noConfusion h
                · rw [if_pos (by simp [hcont2])] at h
                  exact ReadResult.noConfusion h
            · rw [if_neg hF0, if_neg hF5] at h
              exact ReadResult.noConfusion h

theorem read_incomplete_sound {t : List Nat} (hf : IncompleteFragment t) :
    read_utf8_code_point t = .incomplete := by
  obtain ⟨c1, r, rfl, hcase⟩ := hf
  rcases hcase with ⟨hlo, hhi, hlen⟩ | ⟨hlo, hhi, hlen⟩ | ⟨hlo, hhi, hlen⟩
  · -- two-byte lead with no byte after it
    simp only [List.length_cons] at hlen
    have : r = [] := List.eq_nil_of_length_eq_zero (by omega)
    subst this
    rw [read_utf8_code_point.eq_def]
    dsimp only
    rw [if_neg (by omega), if_neg (by omega), if_pos (by omega)]
  · -- three-byte lead with at most one byte after it
    simp only [List.length_cons] at hlen
    match r, hlen with
    | [], _ =>
      rw [read_utf8_code_point.eq_def]
      dsimp only
      rw [if_neg (by omega), if_neg (by omega), if_neg (by omega), if_pos (by omega)]
    | [c2], _ =>
      rw [read_utf8_code_point.eq_def]
      dsimp only
      rw [if_neg (by omega), if_neg (by omega), if_neg (by omega), if_pos (by omega)]
  · -- four-byte lead with at most two bytes after it
    simp only [List.length_cons] at hlen
    match r, hlen with
    | [], _ =>
      rw [read_utf8_code_point.eq_def]
      dsimp only
      rw [if_neg (by omega), if_neg (by omega), if_neg (by omega), if_neg (by omega),
        if_pos (by omega)]
    | [c2], _ =>
      rw [read_utf8_code_point.eq_def]
      dsimp only
      rw [if_neg (by omega), if_neg (by omega), if_neg (by omega), if_neg (by omega),
        if_pos (by omega)]
    | [c2, c3], _ =>
      rw [read_utf8_code_point.eq_def]
      dsimp only
      rw [if_neg (by omega), if_neg (by omega), if_neg (by omega), if_neg (by omega),
        if_pos (by omega)]

theorem read_incomplete_complete {l : List Nat} (hne : l ≠ [])
    (h : read_utf8_code_point l = .incomplete) : IncompleteFragment l := by
  match l with
  | [] => exact absurd rfl hne
  | c1 :: t =>
    rw [read_utf8_code_point.eq_def] at h
    dsimp only at h
    by_cases h80 : c1 < 0x80
    · rw [if_pos h80] at h
      exact ReadResult.noConfusion h
    · rw [if_neg h80] at h
      by_cases hC2 : c1 < 0xC2
      · rw [if_pos hC2] at h
        exact ReadResult.noConfusion h
      · rw [if_neg hC2] at h
        by_cases hE0 : c1 < 0xE0
        · rw [if_pos hE0] at h
          match t with
          | [] => exact ⟨c1, [], rfl, Or.inl ⟨by omega, by omega, by simp⟩⟩
          | c2 :: r2 =>
            dsimp only at h
            split at h <;> exact ReadResult.noConfusion h
        · rw [if_neg hE0] at h
          by_cases hF0 : c1 < 0xF0
          · rw [if_pos hF0] at h
            match t with
            | [] => exact ⟨c1, [], rfl, Or.inr (Or.inl ⟨by omega, by omega, by simp⟩)⟩
            | [c2] => exact ⟨c1, [c2], rfl, Or.inr (Or.inl ⟨by omega, by omega, by simp⟩)⟩
            | c2 :: c3 :: r3 =>
              dsimp only at h
              repeat' split at h
              all_goals exact ReadResult.noConfusion h
          · by_cases hF5 : c1 < 0xF5
            · rw [if_neg hF0, if_pos hF5] at h
              match t with
              | [] => exact ⟨c1, [], rfl, Or.inr (Or.inr ⟨by omega, by omega, by simp⟩)⟩
              | [c2] =>
                exact ⟨c1, [c2], rfl, Or.inr (Or.inr ⟨by omega, by omega, by simp⟩)⟩
              | [c2, c3] =>
                exact ⟨c1, [c2, c3], rfl, Or.inr (Or.inr ⟨by omega, by omega, by simp⟩)⟩
              | c2 :: c3 :: c4 :: r4 =>
                dsimp only at h
                repeat' split at h
                all_goals exact ReadResult.noConfusion h
            · rw [if_neg hF0, if_neg hF5] at h
              exact ReadResult.noConfusion h

theorem utf16_in_part_sound (cps t : List Nat) (h : ∀ cp ∈ cps, cp ≤ 0x10FFFF)
    (hf : IncompleteFragment t) :
    utf16_in (utf8Encode cps ++ t) = .part (utf16Encode cps) := by
  induction cps with
  | nil =>
    have hne : t ≠ [] := by
      obtain ⟨c1, r, rfl, -⟩ := hf
      simp
    show utf16_in (utf8Encode [] ++ t) = _
    rw [show utf8Encode [] ++ t = t by simp [utf8Encode]]
    rw [utf16_in, if_neg hne, read_incomplete_sound hf]
    rfl
  | cons cp cps' ih =>
    have hcp := h cp (by simp)
    have ht : ∀ x ∈ cps', x ≤ 0x10FFFF := fun x hx => h x (by simp [hx])
    have henc : utf8Encode (cp :: cps') ++ t = utf8EncodeChar cp ++ (utf8Encode cps' ++ t) := by
      simp [utf8Encode]
    rw [henc, utf16_in, if_neg (by
      intro hc
      exact utf8EncodeChar_ne_nil cp (List.append_eq_nil.mp hc).1)]
    rw [read_encode cp _ hcp]
    dsimp only
    rw [if_neg (by omega), ih ht]
    dsimp only
    congr 1

theorem utf16_in_decomp (n : Nat) :
    ∀ l : List Nat, l.length ≤ n → (∀ b ∈ l, b < 256) → utf16_in l ≠ .err →
      ∃ cps t : List Nat, (∀ cp ∈ cps, cp ≤ 0x10FFFF) ∧ l = utf8Encode cps ++ t ∧
        (t = [] ∨ IncompleteFragment t) := by
  induction n with
  | zero =>
    intro l hlen hb hne
    have hnil : l = [] := List.eq_nil_of_length_eq_zero (by omega)
    exact ⟨[], [], by simp, by simp [hnil, utf8Encode], Or.inl rfl⟩
  | succ n ih =>
    intro l hlen hb hne
    by_cases hnil : l = []
    · exact ⟨[], [], by simp, by simp [hnil, utf8Encode], Or.inl rfl⟩
    · rw [utf16_in, if_neg hnil] at hne
      cases hread : read_utf8_code_point l with
      | invalid =>
        rw [hread] at hne
        exact absurd rfl hne
      | incomplete =>
        exact ⟨[], l, by simp, by simp [utf8Encode], Or.inr (read_incomplete_complete hnil hread)⟩
      | ok cp rest =>
        rw [hread] at hne
        dsimp only at hne
        obtain ⟨hcp, hl⟩ := read_complete hb hread
        rw [if_neg (by omega)] at hne
        have hbr : ∀ b ∈ rest, b < 256 := fun b hbm => hb b (by
          rw [hl]
          exact List.mem_append_right _ hbm)
        have hlr : rest.length ≤ n := by
          have hlen2 : l.length = (utf8EncodeChar cp).length + rest.length := by
            rw [hl, List.length_append]
          have hne2 : (utf8EncodeChar cp).length ≠ 0 := by
            simpa using utf8EncodeChar_ne_nil cp
          omega
        have hrest_ne : utf16_in rest ≠ .err := by
          intro hc
          rw [hc] at hne
          exact hne rfl
        obtain ⟨cps, t, hv, hrfl, hor⟩ := ih rest hlr hbr hrest_ne
        refine ⟨cp :: cps, t, ?_, ?_, hor⟩
        · intro x hx
          rcases List.mem_cons.mp hx with rfl | hxm
          · exact hcp
          · exact hv x hxm
        · rw [hl, hrfl]
          simp [utf8Encode]

/-- C3 (amended): utf8ToUtf16 never raises an error to the caller, and its
failure behavior on malformed input splits in two: on an input that ends in
a truncated multi-byte sequence (a lead byte announcing more bytes than
remain) it returns the units decoded from the complete sequences before the
truncation - a partial, possibly non-empty result - while on every input
that is malformed in any other way (not a concatenation of minimal-length
UTF-8-style encodings of code points up to U+10FFFF, surrogates included,
optionally followed by one truncated fragment) it returns the empty wide
buffer. -/
theorem utf8ToUtf16_malformed (s : List Nat) (hb : ∀ b ∈ s, b < 256) :
    ((¬ ∃ cps t : List Nat, (∀ cp ∈ cps, cp ≤ 0x10FFFF) ∧ s = utf8Encode cps ++ t ∧
        (t = [] ∨ IncompleteFragment t)) → utf8ToUtf16 s = []) ∧
    (∀ cps t : List Nat, (∀ cp ∈ cps, cp ≤ 0x10FFFF) → s = utf8Encode cps ++ t →
        IncompleteFragment t → utf8ToUtf16 s = utf16Encode cps) := by
  constructor
  · intro h
    rw [utf8ToUtf16]
    cases hin : utf16_in s with
    | ok us =>
      have hne2 : utf16_in s ≠ .err := by
        rw [hin]
        exact fun hc => CodecvtResult.noConfusion hc
      exact absurd (utf16_in_decomp s.length s le_rfl hb hne2) h
    | part us =>
      have hne2 : utf16_in s ≠ .err := by
        rw [hin]
        exact fun hc => CodecvtResult.noConfusion hc
      exact absurd (utf16_in_decomp s.length s le_rfl hb hne2) h
    | err => rfl
  · intro cps t hv hs hf
    rw [hs, utf8ToUtf16, utf16_in_part_sound cps t hv hf]
    rfl

theorem utf8EncodeChar_head (cp b : Nat) (bs : List Nat)
    (h : utf8EncodeChar cp = b :: bs) : b < 0x80 ∨ 0xC2 ≤ b := by
  rw [utf8EncodeChar] at h
  split_ifs at h with h1 h2 h3 <;>
    (simp only [List.cons.injEq] at h; obtain ⟨rfl, -⟩ := h; omega)

/-- Witness for the amended C3: the lone continuation byte 0x80 (the spec
example, invalid at once, hence empty) and the truncated input 41 C2 (a
complete character then a truncated two-byte sequence, hence the non-empty
decoded prefix). -/
theorem utf8ToUtf16_malformed_witness :
    utf8ToUtf16 [0x80] = [] ∧ utf8ToUtf16 [0x41, 0xC2] = utf16Encode [0x41] := by
  constructor
  · refine (utf8ToUtf16_malformed [0x80] (by decide)).1 ?_
    rintro ⟨cps, t, hv, hs, hor⟩
    match cps with
    | [] =>
      rw [show utf8Encode [] ++ t = t by simp [utf8Encode]] at hs
      rcases hor with rfl | ⟨c1, r, hcons, hcase⟩
      · exact List.noConfusion hs
      · rw [← hs] at hcons
        obtain ⟨rfl, -⟩ := List.cons.inj hcons
        rcases hcase with ⟨hlo, -, -⟩ | ⟨hlo, -, -⟩ | ⟨hlo, -, -⟩ <;> omega
    | cp :: t2 =>
      rw [utf8Encode, List.flatMap_cons] at hs
      cases hchar : utf8EncodeChar cp with
      | nil => exact utf8EncodeChar_ne_nil cp hchar
      | cons b bs =>
        rw [hchar] at hs
        simp only [List.cons_append, List.append_assoc, List.cons.injEq] at hs
        obtain ⟨rfl, -⟩ := hs
        rcases utf8EncodeChar_head cp _ _ hchar with hlt | hge <;> omega
  · exact (utf8ToUtf16_malformed [0x41, 0xC2] (by decide)).2 [0x41] [0xC2] (by decide)
      (by decide) ⟨0xC2, [], rfl, Or.inl ⟨by omega, by omega, by simp⟩⟩

/-- Counterexample to C3 as stated, in both of its failure modes. First, the
byte sequence ED A0 80 is malformed UTF-8 (it is the three-byte pattern
applied to the surrogate code point U+D800, which the UTF-8 definition
excludes from valid text), yet utf8ToUtf16 returns the non-empty wide buffer
[0xD800] instead of the empty buffer. Second, the byte sequence 41 C2 is
malformed (a truncated two-byte sequence after the letter A), yet utf8ToUtf16
returns the non-empty partial result [0x41] - so the operation does return
partial results, contrary to the claim. -/
theorem utf8ToUtf16_malformed_cex :
    utf8ToUtf16 [0xED, 0xA0, 0x80] = [0xD800] ∧
    (¬ ∃ cps : List Nat, (∀ cp ∈ cps, ValidScalar cp) ∧
        [0xED, 0xA0, 0x80] = utf8Encode cps) ∧
    utf8ToUtf16 [0x41, 0xC2] = [0x41] ∧
    (¬ ∃ cps : List Nat, (∀ cp ∈ cps, ValidScalar cp) ∧
        [0x41, 0xC2] = utf8Encode cps) := by
  refine ⟨?_, ?_, ?_, ?_⟩
  · rw [utf8ToUtf16, utf16_in, if_neg (by simp)]
    have hread : read_utf8_code_point [0xED, 0xA0, 0x80] = .ok 0xD800 [] := by
      rw [read_utf8_code_point.eq_def]
      norm_num [is_cont]
      decide
    rw [hread]
    dsimp only
    rw [if_neg (by omega), utf16_in]
    simp [write_utf16_code_point, convertOrEmpty]
  · rintro ⟨cps, hv, hs⟩
    match cps with
    | [] => simp [utf8Encode] at hs
    | cp :: t =>
      obtain ⟨hcp1, hcp2⟩ := hv cp (by simp)
      rw [utf8Encode, List.flatMap_cons, utf8EncodeChar] at hs
      split_ifs at hs with h1 h2 h3
      · simp only [List.cons_append, List.cons.injEq] at hs
        omega
      · simp only [List.cons_append, List.cons.injEq] at hs
        obtain ⟨ha, -⟩ := hs
        omega
      · simp only [List.cons_append, List.cons.injEq] at hs
        obtain ⟨ha, hb2, hc, -⟩ := hs
        omega
      · simp only [List.cons_append, List.cons.injEq] at hs
        obtain ⟨-, -, -, hrest⟩ := hs
        exact absurd hrest.symm (by simp)
  · rw [utf8ToUtf16, utf16_in, if_neg (by simp)]
    have hread : read_utf8_code_point [0x41, 0xC2] = .ok 0x41 [0xC2] := by
      rw [read_utf8_code_point.eq_def]
      norm_num
    rw [hread]
    dsimp only
    rw [if_neg (by omega)]
    have h2 : utf16_in [0xC2] = .part [] := by
      have hrd : read_utf8_code_point [0xC2] = .incomplete := by
        rw [read_utf8_code_point.eq_def]
        norm_num
      rw [utf16_in, if_neg (by simp), hrd]
    rw [h2]
    simp [write_utf16_code_point, convertOrEmpty]
  · rintro ⟨cps, hv, hs⟩
    match cps with
    | [] => simp [utf8Encode] at hs
    | cp :: t =>
      obtain ⟨hcp1, hcp2⟩ := hv cp (by simp)
      rw [utf8Encode, List.flatMap_cons, utf8EncodeChar] at hs
      split_ifs at hs with h1 h2 h3
      · -- one-byte head: cp = 0x41, remaining [0xC2] must be encoded points
        simp only [List.cons_append, List.cons.injEq] at hs
        obtain ⟨rfl, hrest⟩ := hs
        match t with
        | [] => simp at hrest
        | cp2 :: t2 =>
          obtain ⟨hcp21, hcp22⟩ := hv cp2 (by simp)
          rw [List.flatMap_cons, utf8EncodeChar] at hrest
          split_ifs at hrest with g1 g2 g3
          · simp only [List.cons_append, List.nil_append, List.cons.injEq] at hrest
            obtain ⟨ha, -⟩ := hrest
            omega
          · simp at hrest
          · simp at hrest
          · simp at hrest
      · simp only [List.cons_append, List.cons.injEq] at hs
        omega
      · simp only [List.cons_append, List.cons.injEq] at hs
        obtain ⟨-, -, hrest⟩ := hs
        exact absurd hrest.symm (by simp)
      · simp only [List.cons_append, List.cons.injEq] at hs
        obtain ⟨-, -, hrest⟩ := hs
        exact absurd hrest.symm (by simp)
